import Mathlib

/-!
Verification of the `ci-tools` repository: a TestGrid dashboard deriver
(`main` walking release-controller descriptors) and a dynamic secret censor
(`pkg/secrets/censor.go`).  Go values are shallowly embedded: structs become
structures, maps become lists of entries, the mutable censor becomes explicit
state passing, and `sort.Slice` / `sets.String.List()` become an executable
comparison-based sort over byte-wise lexicographic string order.
-/

namespace CITools

/-! Lexicographic string comparison, modelling Go byte-wise string order
(`<` on `string`), executable on character lists. -/

/-- Lexicographic strict order on character lists, comparing code points. -/
def strLtChars : List Char → List Char → Bool
  | [], [] => false
  | [], _ :: _ => true
  | _ :: _, [] => false
  | a :: as, b :: bs =>
    if a.toNat < b.toNat then true
    else if b.toNat < a.toNat then false
    else strLtChars as bs

/-- Strict lexicographic order on strings, as Go compares strings. -/
def strLt (a b : String) : Bool := strLtChars a.data b.data

/-- Reflexive lexicographic order on strings. -/
def strLe (a b : String) : Bool := !(strLt b a)

theorem strLtChars_irrefl : ∀ l : List Char, strLtChars l l = false := by
  intro l
  induction l with
  | nil => rfl
  | cons a t ih => simp [strLtChars, ih]

theorem strLtChars_asymm : ∀ a b : List Char,
    strLtChars a b = true → strLtChars b a = false := by
  intro a
  induction a with
  | nil =>
    intro b h
    cases b with
    | nil => simp [strLtChars] at h
    | cons y ys => simp [strLtChars]
  | cons x xs ih =>
    intro b h
    cases b with
    | nil => simp [strLtChars] at h
    | cons y ys =>
      simp only [strLtChars] at h ⊢
      by_cases h1 : x.toNat < y.toNat
      · have h2 : ¬ y.toNat < x.toNat := by omega
        simp [h1, h2]
      · by_cases h2 : y.toNat < x.toNat
        · simp [h1, h2] at h
        · simp only [if_neg h1, if_neg h2] at h
          simp [if_neg h1, if_neg h2, ih ys h]

theorem char_toNat_inj (a b : Char) (h : a.toNat = b.toNat) : a = b := by
  apply Char.ext
  exact UInt32.ext h

theorem strLtChars_connex : ∀ a b : List Char,
    strLtChars a b = false → strLtChars b a = false → a = b := by
  intro a
  induction a with
  | nil =>
    intro b h1 h2
    cases b with
    | nil => rfl
    | cons y ys => simp [strLtChars] at h1
  | cons x xs ih =>
    intro b h1 h2
    cases b with
    | nil => simp [strLtChars] at h2
    | cons y ys =>
      simp only [strLtChars] at h1 h2
      by_cases c1 : x.toNat < y.toNat
      · simp [c1] at h1
      · by_cases c2 : y.toNat < x.toNat
        · simp [c1, c2] at h2
        · simp only [if_neg c1, if_neg c2] at h1 h2
          have hx : x = y := char_toNat_inj x y (by omega)
          rw [hx, ih ys h1 h2]

theorem strLtChars_weak_trans : ∀ c a b : List Char,
    strLtChars c a = true → strLtChars c b = true ∨ strLtChars b a = true := by
  intro c
  induction c with
  | nil =>
    intro a b h
    cases a with
    | nil => simp [strLtChars] at h
    | cons x xs =>
      cases b with
      | nil => right; simp [strLtChars]
      | cons y ys => left; simp [strLtChars]
  | cons w ws ih =>
    intro a b h
    cases a with
    | nil => simp [strLtChars] at h
    | cons x xs =>
      cases b with
      | nil => right; simp [strLtChars]
      | cons y ys =>
        simp only [strLtChars] at h ⊢
        by_cases d1 : w.toNat < y.toNat
        · left; simp [d1]
        · by_cases d2 : y.toNat < x.toNat
          · right; simp [d2]
          · by_cases d3 : w.toNat < x.toNat
            · omega
            · by_cases d4 : x.toNat < w.toNat
              · simp [d3, d4] at h
              · simp only [if_neg d3, if_neg d4] at h
                have hyw : ¬ y.toNat < w.toNat := by omega
                have hxy : ¬ x.toNat < y.toNat := by omega
                simp only [if_neg d1, if_neg hyw, if_neg d2, if_neg hxy]
                exact ih xs ys h

theorem strLe_total (a b : String) (h : strLe a b = false) : strLe b a = true := by
  simp only [strLe, strLt] at h ⊢
  cases hx : strLtChars b.data a.data
  · rw [hx] at h
    simp at h
  · simp [strLtChars_asymm _ _ hx]

theorem strLe_trans (a b c : String) (h1 : strLe a b = true) (h2 : strLe b c = true) :
    strLe a c = true := by
  simp only [strLe, Bool.not_eq_true', strLt] at h1 h2 ⊢
  by_contra hc
  have hc2 : strLtChars c.data a.data = true := by
    cases h : strLtChars c.data a.data
    · exact absurd h hc
    · rfl
  rcases strLtChars_weak_trans c.data a.data b.data hc2 with h3 | h3
  · rw [h2] at h3; exact Bool.false_ne_true h3
  · rw [h1] at h3; exact Bool.false_ne_true h3

theorem strLe_of_strLt (a b : String) (h : strLt a b = true) : strLe a b = true := by
  simp only [strLe, Bool.not_eq_true', strLt] at h ⊢
  exact strLtChars_asymm _ _ h

theorem strLt_of_strLe_ne (a b : String) (h1 : strLe a b = true) (h2 : a ≠ b) :
    strLt a b = true := by
  simp only [strLe, Bool.not_eq_true', strLt] at h1 ⊢
  cases h3 : strLtChars a.data b.data
  · exfalso
    apply h2
    have hd := strLtChars_connex a.data b.data h3 h1
    have := congrArg String.mk hd
    simpa using this
  · rfl

/-! Comparison-based insertion sort over a boolean comparator, the embedding
of Go `sort.Slice` and of the sorted key listing of `sets.String`. -/

/-- Insert an element into a list before the first element it compares
less-or-equal to. -/
def insertBy (le : α → α → Bool) (a : α) : List α → List α
  | [] => [a]
  | b :: l => if le a b then a :: b :: l else b :: insertBy le a l

/-- Sort a list by repeated insertion, used to model comparison sorting. -/
def sortBy (le : α → α → Bool) : List α → List α
  | [] => []
  | a :: l => insertBy le a (sortBy le l)

theorem perm_insertBy (le : α → α → Bool) (a : α) :
    ∀ l : List α, (insertBy le a l).Perm (a :: l) := by
  intro l
  induction l with
  | nil => exact List.Perm.refl _
  | cons b t ih =>
    simp only [insertBy]
    by_cases h : le a b = true
    · simp [h]
    · simp only [h, if_false, Bool.false_eq_true]
      exact List.Perm.trans (List.Perm.cons b ih) (List.Perm.swap a b t)

theorem perm_sortBy (le : α → α → Bool) : ∀ l : List α, (sortBy le l).Perm l := by
  intro l
  induction l with
  | nil => exact List.Perm.refl _
  | cons a t ih =>
    exact List.Perm.trans (perm_insertBy le a (sortBy le t)) (List.Perm.cons a ih)

theorem mem_sortBy (le : α → α → Bool) (l : List α) (x : α) :
    x ∈ sortBy le l ↔ x ∈ l :=
  List.Perm.mem_iff (perm_sortBy le l)

theorem pairwise_insertBy (le : α → α → Bool)
    (htot : ∀ a b, le a b = false → le b a = true)
    (htrans : ∀ a b c, le a b = true → le b c = true → le a c = true)
    (a : α) :
    ∀ l : List α, l.Pairwise (fun x y => le x y = true) →
      (insertBy le a l).Pairwise (fun x y => le x y = true) := by
  intro l
  induction l with
  | nil => intro h; simp [insertBy]
  | cons b t ih =>
    intro h
    rw [List.pairwise_cons] at h
    obtain ⟨hb, ht⟩ := h
    simp only [insertBy]
    by_cases hab : le a b = true
    · simp only [hab, if_true]
      rw [List.pairwise_cons]
      constructor
      · intro y hy
        rcases List.mem_cons.mp hy with rfl | hyt
        · exact hab
        · exact htrans a b y hab (hb y hyt)
      · rw [List.pairwise_cons]
        exact ⟨hb, ht⟩
    · have hab2 : le a b = false := by
        cases h : le a b
        · rfl
        · exact absurd h hab
      simp only [hab, if_false, Bool.false_eq_true]
      rw [List.pairwise_cons]
      constructor
      · intro y hy
        have := (List.Perm.mem_iff (perm_insertBy le a t)).mp hy
        rcases List.mem_cons.mp this with hEq | hyt
        · rw [hEq]
          exact htot a b hab2
        · exact hb y hyt
      · exact ih ht

theorem pairwise_sortBy (le : α → α → Bool)
    (htot : ∀ a b, le a b = false → le b a = true)
    (htrans : ∀ a b c, le a b = true → le b c = true → le a c = true) :
    ∀ l : List α, (sortBy le l).Pairwise (fun x y => le x y = true) := by
  intro l
  induction l with
  | nil => simp [sortBy]
  | cons a t ih => exact pairwise_insertBy le htot htrans a (sortBy le t) ih

theorem nodup_sortBy (le : α → α → Bool) (l : List α) (h : l.Nodup) :
    (sortBy le l).Nodup :=
  (List.Perm.nodup_iff (perm_sortBy le l)).mpr h

/-! Data model of the dashboard deriver (`main`): TestGrid configuration
values, release-controller descriptors, and the per-descriptor routing of
verify jobs into blocking and informing dashboards. -/

/-- Key-value option of a TestGrid link template (`config.LinkOptionsTemplate`). -/
structure LinkOptionsTemplate where
  key : String
  value : String
deriving DecidableEq

/-- TestGrid link template (`config.LinkTemplate`): a URL plus options. -/
structure LinkTemplate where
  url : String
  options : List LinkOptionsTemplate
deriving DecidableEq

/-- TestGrid dashboard tab (`config.DashboardTab`), restricted to the fields
the deriver populates. -/
structure DashboardTab where
  name : String
  testGroupName : String
  baseOptions : String
  openTestTemplate : LinkTemplate
  fileBugTemplate : LinkTemplate
  openBugTemplate : LinkTemplate
  resultsUrlTemplate : LinkTemplate
  codeSearchPath : String
  codeSearchUrlTemplate : LinkTemplate
deriving DecidableEq

/-- TestGrid test group (`config.TestGroup`), restricted to the fields the
deriver populates. -/
structure TestGroup where
  name : String
  gcsPrefix : String
deriving DecidableEq

/-- TestGrid dashboard (`config.Dashboard`): a name and its tabs. -/
structure ConfigDashboard where
  name : String
  dashboardTab : List DashboardTab
deriving DecidableEq

/-- TestGrid dashboard group (`config.DashboardGroup`): a named list of
dashboard names. -/
structure DashboardGroup where
  name : String
  dashboardNames : List String
deriving DecidableEq

/-- TestGrid configuration document (`config.Configuration`), restricted to
the fields the deriver reads or writes. -/
structure Configuration where
  testGroups : List TestGroup
  dashboards : List ConfigDashboard
  dashboardGroups : List DashboardGroup
deriving DecidableEq

/-- The deriver-local `dashboard` struct: an embedded `config.Dashboard`
plus the test groups collected for its tabs. -/
structure dashboard where
  board : ConfigDashboard
  testGroups : List TestGroup
deriving DecidableEq

/-- Embedding of `dashboardFor`: a fresh, empty dashboard named after the
product, version and role. -/
def dashboardFor (product version role : String) : dashboard :=
  { board := { name := "redhat-openshift-" ++ product ++ "-release-" ++ version ++ "-" ++ role,
               dashboardTab := [] },
    testGroups := [] }

/-- Embedding of `dashboardTabFor`: a tab with fixed template fields
parameterized only by the job name. -/
def dashboardTabFor (name : String) : DashboardTab :=
  { name := name,
    testGroupName := name,
    baseOptions := "width=10",
    openTestTemplate := { url := "https://prow.svc.ci.openshift.org/view/gcs/<gcs_prefix>/<changelist>",
                          options := [] },
    fileBugTemplate := { url := "https://github.com/openshift/origin/issues/new",
                         options := [ { key := "title", value := "E2E: <test-name>" },
                                      { key := "body", value := "<test-url>" } ] },
    openBugTemplate := { url := "https://github.com/openshift/origin/issues/", options := [] },
    resultsUrlTemplate := { url := "https://prow.svc.ci.openshift.org/job-history/<gcs_prefix>",
                            options := [] },
    codeSearchPath := "https://github.com/openshift/origin/search",
    codeSearchUrlTemplate := { url := "https://github.com/openshift/origin/compare/<start-custom-0>...<end-custom-0>",
                               options := [] } }

/-- Embedding of `testGroupFor`: a test group with the derived log prefix. -/
def testGroupFor (name : String) : TestGroup :=
  { name := name, gcsPrefix := "origin-ci-test/logs/" ++ name }

/-- Embedding of the `add` method on the deriver-local `dashboard` struct:
append a tab and a matching test group for the given job name. -/
def dashboard.add (d : dashboard) (name : String) : dashboard :=
  { board := { name := d.board.name,
               dashboardTab := d.board.dashboardTab ++ [dashboardTabFor name] },
    testGroups := d.testGroups ++ [testGroupFor name] }

/-- Image stream reference of the mirror publish target (`imageStreamRef`). -/
structure ImageStreamRef where
  name : String
deriving DecidableEq

/-- Mirror publish target of a release descriptor (`mirror-to-origin`). -/
structure Mirror where
  imageStreamRef : ImageStreamRef
deriving DecidableEq

/-- Tag reference of the tag publish target (`tagRef`). -/
structure TagRef where
  name : String
deriving DecidableEq

/-- Tag publish target of a release descriptor (`tag`). -/
structure Tag where
  tagRef : TagRef
deriving DecidableEq

/-- Publish section of a release descriptor (`publish`). -/
structure Publish where
  mirror : Mirror
  tag : Tag
deriving DecidableEq

/-- Prow job reference of a verify entry (`prowJob`). -/
structure ProwJob where
  name : String
deriving DecidableEq

/-- One entry of the `verify` map of a release descriptor. Map keys are
never read by the deriver, so entries are kept as a list of values. -/
structure VerifyItem where
  optional : Bool
  prowJob : ProwJob
deriving DecidableEq

/-- Embedding of the `release` struct: the subset of the release
controller configuration the deriver reads. -/
structure Release where
  publish : Publish
  verify : List VerifyItem
deriving DecidableEq

/-- Embedding of the product/version determination in `main`: the mirror
publish name is checked first and yields product `okd`; otherwise a
non-empty tag publish name yields product `ocp`; otherwise the descriptor
is skipped. -/
def classify (r : Release) : Option (String × String) :=
  if r.publish.mirror.imageStreamRef.name ≠ "" then
    some ("okd", r.publish.mirror.imageStreamRef.name)
  else if r.publish.tag.tagRef.name ≠ "" then
    some ("ocp", r.publish.tag.tagRef.name)
  else
    none

/-- The job name hard-coded in `main` to be skipped during routing. -/
def excludedJob : String := "release-openshift-origin-installer-e2e-aws-upgrade"

/-- Embedding of the verify-routing loop of `main`: skip the excluded job,
route optional jobs to the informing dashboard and the rest to blocking. -/
def routeVerify : dashboard → dashboard → List VerifyItem → dashboard × dashboard
  | blocking, informing, [] => (blocking, informing)
  | blocking, informing, job :: rest =>
    if job.prowJob.name = excludedJob then
      routeVerify blocking informing rest
    else if job.optional then
      routeVerify blocking (informing.add job.prowJob.name) rest
    else
      routeVerify (blocking.add job.prowJob.name) informing rest

/-- Jobs routed to the blocking dashboard: not excluded and not optional. -/
def blockingJob (j : VerifyItem) : Bool :=
  decide (j.prowJob.name ≠ excludedJob) && !j.optional

/-- Jobs routed to the informing dashboard: not excluded and optional. -/
def informingJob (j : VerifyItem) : Bool :=
  decide (j.prowJob.name ≠ excludedJob) && j.optional

/-- Embedding of the per-descriptor part of `main`: classify the
descriptor, route its verify entries, and keep only the dashboards that
received at least one test group. -/
def deriveDashboards (r : Release) : List dashboard :=
  match classify r with
  | none => []
  | some pv =>
    let bi := routeVerify (dashboardFor pv.1 pv.2 "blocking")
      (dashboardFor pv.1 pv.2 "informing") r.verify
    (if 0 < bi.1.testGroups.length then [bi.1] else []) ++
    (if 0 < bi.2.testGroups.length then [bi.2] else [])

theorem routeVerify_spec (blocking informing : dashboard) (jobs : List VerifyItem) :
    routeVerify blocking informing jobs =
      ({ board := { name := blocking.board.name,
                    dashboardTab := blocking.board.dashboardTab ++
                      (jobs.filter blockingJob).map (fun j => dashboardTabFor j.prowJob.name) },
         testGroups := blocking.testGroups ++
           (jobs.filter blockingJob).map (fun j => testGroupFor j.prowJob.name) },
       { board := { name := informing.board.name,
                    dashboardTab := informing.board.dashboardTab ++
                      (jobs.filter informingJob).map (fun j => dashboardTabFor j.prowJob.name) },
         testGroups := informing.testGroups ++
           (jobs.filter informingJob).map (fun j => testGroupFor j.prowJob.name) }) := by
  induction jobs generalizing blocking informing with
  | nil => simp [routeVerify]
  | cons j rest ih =>
    simp only [routeVerify]
    by_cases h1 : j.prowJob.name = excludedJob
    · rw [if_pos h1]
      rw [ih blocking informing]
      simp [blockingJob, informingJob, h1]
    · rw [if_neg h1]
      by_cases h2 : j.optional = true
      · rw [if_pos h2]
        rw [ih blocking (informing.add j.prowJob.name)]
        simp [blockingJob, informingJob, h1, h2, dashboard.add]
      · rw [if_neg h2]
        rw [ih (blocking.add j.prowJob.name) informing]
        simp [blockingJob, informingJob, h1, h2, dashboard.add]

/-! Embedding of `k8s.io/apimachinery` `sets.String`: a deduplicated string
collection whose `List()` method returns the sorted members. -/

/-- Deduplicated string set, kept as the list of members without duplicates. -/
structure StringSet where
  elems : List String
deriving DecidableEq

/-- Embedding of `sets.NewString()`. -/
def StringSet.empty : StringSet := { elems := [] }

/-- Embedding of `Insert` on `sets.String`: add a member if not present. -/
def StringSet.insert (c : StringSet) (s : String) : StringSet :=
  if s ∈ c.elems then c else { elems := c.elems ++ [s] }

/-- Insert several members in order, as variadic `Insert(s...)` does. -/
def StringSet.insertAll (c : StringSet) (l : List String) : StringSet :=
  l.foldl StringSet.insert c

/-- Embedding of `List()` on `sets.String`: the members sorted ascending. -/
def StringSet.list (c : StringSet) : List String :=
  sortBy strLe c.elems

theorem StringSet.mem_insert (c : StringSet) (s x : String) :
    x ∈ (c.insert s).elems ↔ x ∈ c.elems ∨ x = s := by
  simp only [StringSet.insert]
  by_cases h : s ∈ c.elems
  · rw [if_pos h]
    constructor
    · intro hx; exact Or.inl hx
    · intro hx
      rcases hx with hx | hx
      · exact hx
      · rw [hx]; exact h
  · rw [if_neg h]
    simp

theorem StringSet.mem_insertAll (l : List String) :
    ∀ (c : StringSet) (x : String),
      x ∈ (c.insertAll l).elems ↔ x ∈ c.elems ∨ x ∈ l := by
  induction l with
  | nil => intro c x; simp [StringSet.insertAll]
  | cons a t ih =>
    intro c x
    simp only [StringSet.insertAll, List.foldl_cons]
    rw [show t.foldl StringSet.insert (c.insert a) = (c.insert a).insertAll t from rfl]
    rw [ih (c.insert a) x, StringSet.mem_insert]
    simp only [List.mem_cons]
    tauto

theorem StringSet.nodup_insert (c : StringSet) (s : String) (h : c.elems.Nodup) :
    (c.insert s).elems.Nodup := by
  simp only [StringSet.insert]
  by_cases hs : s ∈ c.elems
  · rw [if_pos hs]; exact h
  · rw [if_neg hs]
    simp [List.nodup_append, h, hs]

theorem StringSet.nodup_insertAll (l : List String) :
    ∀ c : StringSet, c.elems.Nodup → (c.insertAll l).elems.Nodup := by
  induction l with
  | nil => intro c h; exact h
  | cons a t ih =>
    intro c h
    simp only [StringSet.insertAll, List.foldl_cons]
    exact ih (c.insert a) (StringSet.nodup_insert c a h)

theorem StringSet.mem_list (c : StringSet) (x : String) :
    x ∈ c.list ↔ x ∈ c.elems :=
  mem_sortBy strLe c.elems x

theorem StringSet.sorted_list (c : StringSet) :
    c.list.Pairwise (fun x y => strLe x y = true) :=
  pairwise_sortBy strLe strLe_total strLe_trans c.elems

theorem StringSet.sorted_lt_list (c : StringSet) (h : c.elems.Nodup) :
    c.list.Pairwise (fun x y => strLt x y = true) := by
  have h1 := StringSet.sorted_list c
  have h2 : c.list.Nodup := nodup_sortBy strLe c.elems h
  have h3 := List.Pairwise.and h1 h2
  apply List.Pairwise.imp _ h3
  intro a b hab
  exact strLt_of_strLe_ne a b hab.1 hab.2

/-! Embedding of the run-level part of `main`: accumulate the kept
dashboards of every descriptor, collect their names, and merge them into
the `redhat` dashboard group of the shared `groups.yaml` configuration. -/

/-- Dashboards accumulated over all release descriptors, in walk order. -/
def runDashboards (rs : List Release) : List dashboard :=
  (rs.map deriveDashboards).flatten

/-- Embedding of the `dashboardNames` set of `main`: the names of all
derived dashboards, inserted into a fresh set. -/
def runDerivedNames (rs : List Release) : StringSet :=
  StringSet.empty.insertAll ((runDashboards rs).map (fun d => d.board.name))

/-- Embedding of the group-index update loop of `main`: every group named
`redhat` absorbs the accumulated set, which in turn absorbs the group's
previous names; other groups are left alone. The set state threads through
the loop exactly as the shared `dashboardNames` variable does. -/
def updateGroups (names : StringSet) : List DashboardGroup → StringSet × List DashboardGroup
  | [] => (names, [])
  | g :: rest =>
    if g.name = "redhat" then
      ((updateGroups (names.insertAll g.dashboardNames) rest).1,
        { name := g.name,
          dashboardNames := (names.insertAll g.dashboardNames).list } ::
          (updateGroups (names.insertAll g.dashboardNames) rest).2)
    else
      ((updateGroups names rest).1, g :: (updateGroups names rest).2)

/-- Embedding of the `groups.yaml` rewrite of `main`: only the dashboard
groups are touched; the other configuration fields are written back as
read. -/
def updateConfiguration (names : StringSet) (c : Configuration) : Configuration :=
  { testGroups := c.testGroups,
    dashboards := c.dashboards,
    dashboardGroups := (updateGroups names c.dashboardGroups).2 }

theorem updateGroups_length (names : StringSet) (gs : List DashboardGroup) :
    ((updateGroups names gs).2).length = gs.length := by
  induction gs generalizing names with
  | nil => rfl
  | cons g rest ih =>
    simp only [updateGroups]
    by_cases h : g.name = "redhat"
    · rw [if_pos h]
      simp [ih]
    · rw [if_neg h]
      simp [ih]

/-! Embedding of the per-dashboard output of `main`: a minimal
configuration document with sorted test groups and sorted tabs. -/

/-- Comparison used by `sort.Slice` on test groups: ascending by name. -/
def tgLe (a b : TestGroup) : Bool := strLe a.name b.name

/-- Comparison used by `sort.Slice` on tabs: ascending by name. -/
def tabLe (a b : DashboardTab) : Bool := strLe a.name b.name

/-- Comparison used by `sort.Slice` on dashboards: ascending by name. -/
def boardLe (a b : ConfigDashboard) : Bool := strLe a.name b.name

/-- Embedding of the per-dashboard config built and written by `main`: the
dashboard's test groups and the dashboard itself, each list sorted. -/
def outputConfigFor (d : dashboard) : Configuration :=
  { testGroups := sortBy tgLe d.testGroups,
    dashboards := (sortBy boardLe [d.board]).map
      (fun b => { name := b.name, dashboardTab := sortBy tabLe b.dashboardTab }),
    dashboardGroups := [] }

/-! Embedding of `pkg/secrets/censor.go`: the `DynamicCensor` state is the
mutex-guarded pair of the secret set and the censorer last rebuilt from it.
The external `secretutil.ReloadingCensorer` is represented by the list of
secrets it was last refreshed with. -/

/-- State of a `DynamicCensor`: the secret set and the list of secrets the
embedded `ReloadingCensorer` was last refreshed with. -/
structure DynamicCensor where
  secrets : StringSet
  refreshed : List String
deriving DecidableEq

/-- Embedding of `NewDynamicCensor`: empty set, censorer built from nothing. -/
def NewDynamicCensor : DynamicCensor :=
  { secrets := StringSet.empty, refreshed := [] }

/-- Embedding of `AddSecrets`: insert the given strings into the set, then
refresh the censorer from the full current set listing. -/
def AddSecrets (c : DynamicCensor) (s : List String) : DynamicCensor :=
  let secrets2 := c.secrets.insertAll s
  { secrets := secrets2, refreshed := secrets2.list }

/-- Embedding of `ReadFromEnv`: the environment is passed as a lookup
function defaulting to the empty string for unset variables, as
`os.Getenv` does; a non-empty value is registered as a secret. -/
def ReadFromEnv (getenv : String → String) (name : String) (censor : DynamicCensor) :
    String × DynamicCensor :=
  let ret := getenv name
  if ret ≠ "" then (ret, AddSecrets censor [ret]) else (ret, censor)

/-- Embedding of Go `strings.TrimSpace` on character lists: drop leading
and trailing whitespace. -/
def trimChars (l : List Char) : List Char :=
  ((l.dropWhile Char.isWhitespace).reverse.dropWhile Char.isWhitespace).reverse

/-- Embedding of Go `strings.TrimSpace` on strings. -/
def trimSpace (s : String) : String := String.mk (trimChars s.data)

/-- Embedding of `ReadFromFile`: the read outcome is passed as an
`Except`; on success the trimmed content is registered as a secret and
returned, on failure the error propagates and nothing is registered. -/
def ReadFromFile (contents : Except String String) (censor : DynamicCensor) :
    Except String (String × DynamicCensor) :=
  match contents with
  | Except.error e => Except.error e
  | Except.ok data =>
    let ret := trimSpace data
    Except.ok (ret, AddSecrets censor [ret])

/-- Modelled from the spec: the fixed mask that the external
`secretutil.ReloadingCensorer` (not part of this repository) substitutes
for secrets; the spec only requires it to be a fixed mask. -/
def mask : String := "XXXXXXX"

/-- Modelled from the spec: the text scan of the external censorer,
"replacing every literal occurrence of any secret substring with a fixed
mask". The text is scanned left to right; at each position the first
non-empty secret that matches is replaced by the mask and the scan resumes
after the occurrence. -/
def redactChars (secrets : List (List Char)) : List Char → List Char
  | [] => []
  | c :: rest =>
    match secrets.find? (fun s => decide (s ≠ [] ∧ s <+: (c :: rest))) with
    | some s => mask.data ++ redactChars secrets (rest.drop (s.length - 1))
    | none => c :: redactChars secrets rest
termination_by l => l.length
decreasing_by
  · simp [List.length_drop]
    omega
  · simp

/-- Modelled from the spec: `Redact` applies the current censorer — the one
last refreshed by `AddSecrets` — to the text. -/
def Redact (c : DynamicCensor) (text : String) : String :=
  String.mk (redactChars (c.refreshed.map String.data) text.data)

theorem redactChars_of_no_occurrence (secrets : List (List Char)) :
    ∀ text : List Char,
      (∀ s ∈ secrets, s = [] ∨ ¬ s <:+: text) → redactChars secrets text = text := by
  intro text
  induction text using redactChars.induct secrets with
  | case1 => intro h; simp [redactChars]
  | case2 c rest s2 hf ih =>
    intro h
    exfalso
    have hp := List.find?_some hf
    have hmem := List.mem_of_find?_eq_some hf
    simp only [decide_eq_true_eq] at hp
    rcases h s2 hmem with h1 | h2
    · exact hp.1 h1
    · exact h2 ( List.IsPrefix.isInfix hp.2)
  | case3 c rest hf ih =>
    intro h
    have h2 : ∀ s ∈ secrets, s = [] ∨ ¬ s <:+: rest := by
      intro s hs
      rcases h s hs with h1 | h1
      · exact Or.inl h1
      · exact Or.inr fun hinf => h1 ( List.infix_cons hinf)
    rw [redactChars, hf, ih h2]

theorem redactChars_masks (secrets : List (List Char)) :
    ∀ text s : List Char, s ∈ secrets → s ≠ [] → s <:+: text →
      mask.data <:+: redactChars secrets text := by
  intro text
  induction text using redactChars.induct secrets with
  | case1 =>
    intro s hmem hne hocc
    rw [ List.infix_nil] at hocc
    exact absurd hocc hne
  | case2 c rest s2 hf ih =>
    intro s hmem hne hocc
    rw [redactChars, hf]
    exact List.IsPrefix.isInfix ( List.prefix_append mask.data _)
  | case3 c rest hf ih =>
    intro s hmem hne hocc
    rw [redactChars, hf]
    rcases List.infix_cons_iff.mp hocc with h1 | h2
    · exfalso
      have := List.find?_eq_none.mp hf s hmem
      simp only [decide_eq_true_eq] at this
      exact this ⟨hne, h1⟩
    · exact List.infix_cons (ih s hmem hne h2)

/-! Helper lemmas about the routed dashboards. -/

theorem routeVerify_from_empty (p v : String) (jobs : List VerifyItem) :
    routeVerify (dashboardFor p v "blocking") (dashboardFor p v "informing") jobs =
      ({ board := { name := "redhat-openshift-" ++ p ++ "-release-" ++ v ++ "-" ++ "blocking",
                    dashboardTab := (jobs.filter blockingJob).map
                      (fun j => dashboardTabFor j.prowJob.name) },
         testGroups := (jobs.filter blockingJob).map (fun j => testGroupFor j.prowJob.name) },
       { board := { name := "redhat-openshift-" ++ p ++ "-release-" ++ v ++ "-" ++ "informing",
                    dashboardTab := (jobs.filter informingJob).map
                      (fun j => dashboardTabFor j.prowJob.name) },
         testGroups := (jobs.filter informingJob).map (fun j => testGroupFor j.prowJob.name) }) := by
  rw [routeVerify_spec]
  simp [dashboardFor]

theorem tab_names_of_filtered (jobs : List VerifyItem) (p : VerifyItem → Bool) :
    ((jobs.filter p).map (fun j => dashboardTabFor j.prowJob.name)).map DashboardTab.name =
      (jobs.filter p).map (fun j => j.prowJob.name) := by
  rw [List.map_map]
  apply List.map_congr_left
  intro j hj
  simp [dashboardTabFor]

theorem group_names_of_filtered (jobs : List VerifyItem) (p : VerifyItem → Bool) :
    ((jobs.filter p).map (fun j => testGroupFor j.prowJob.name)).map TestGroup.name =
      (jobs.filter p).map (fun j => j.prowJob.name) := by
  rw [List.map_map]
  apply List.map_congr_left
  intro j hj
  simp [testGroupFor]

theorem excluded_not_in_filtered (jobs : List VerifyItem) (p : VerifyItem → Bool)
    (hp : ∀ j, p j = true → ¬ j.prowJob.name = excludedJob) :
    excludedJob ∉ (jobs.filter p).map (fun j => j.prowJob.name) := by
  intro hmem
  rcases List.mem_map.mp hmem with ⟨j, hj, heq⟩
  exact hp j (List.mem_filter.mp hj).2 heq

theorem blockingJob_not_excluded (j : VerifyItem) (h : blockingJob j = true) :
    ¬ j.prowJob.name = excludedJob := by
  simp [blockingJob] at h
  exact h.1

theorem informingJob_not_excluded (j : VerifyItem) (h : informingJob j = true) :
    ¬ j.prowJob.name = excludedJob := by
  simp [informingJob] at h
  exact h.1

theorem string_append_length_ne (p v : String) :
    "redhat-openshift-" ++ p ++ "-release-" ++ v ++ "-" ++ "blocking" ≠
      "redhat-openshift-" ++ p ++ "-release-" ++ v ++ "-" ++ "informing" := by
  intro h
  have hl := congrArg String.length h
  simp only [String.length_append] at hl
  have h1 : ("blocking" : String).length = 8 := by decide
  have h2 : ("informing" : String).length = 9 := by decide
  rw [h1, h2] at hl
  omega

/-! The claims. -/

/-- C1: for every release descriptor whose `publish.mirror-to-origin`
image stream name is non-empty, the deriver classifies it with product
`okd` and version equal to that name; for every descriptor with only a
non-empty `publish.tag` tag name, the product is `ocp` and the version is
that tag name. -/
theorem C1_classification (r : Release) :
    (r.publish.mirror.imageStreamRef.name ≠ "" →
      classify r = some ("okd", r.publish.mirror.imageStreamRef.name)) ∧
    (r.publish.mirror.imageStreamRef.name = "" → r.publish.tag.tagRef.name ≠ "" →
      classify r = some ("ocp", r.publish.tag.tagRef.name)) := by
  constructor
  · intro h
    simp [classify, h]
  · intro h1 h2
    simp [classify, h1, h2]

/-- Witness for C1 at concrete descriptors: a mirror-publishing descriptor
is classified okd/4.5, and a tag-only descriptor is classified ocp/4.4. -/
theorem C1_classification_witness :
    ({ publish := { mirror := { imageStreamRef := { name := "4.5" } },
                    tag := { tagRef := { name := "" } } },
       verify := [] } : Release).publish.mirror.imageStreamRef.name ≠ "" ∧
    classify { publish := { mirror := { imageStreamRef := { name := "4.5" } },
                            tag := { tagRef := { name := "" } } },
               verify := [] } = some ("okd", "4.5") ∧
    classify { publish := { mirror := { imageStreamRef := { name := "" } },
                            tag := { tagRef := { name := "4.4" } } },
               verify := [] } = some ("ocp", "4.4") := by
  refine ⟨by decide, (C1_classification _).1 (by decide), (C1_classification _).2 rfl (by decide)⟩

/-- C2 counterexample: `ReadFromFile` on a whitespace-only file trims the
content to the empty string and still adds the empty string to the secret
set, refuting the claim that an empty resulting value is never added. -/
theorem C2_counterexample :
    trimSpace " " = "" ∧
    ReadFromFile (Except.ok " ") NewDynamicCensor =
      Except.ok ("", AddSecrets NewDynamicCensor [""]) ∧
    "" ∈ (AddSecrets NewDynamicCensor [""]).secrets.elems := by
  refine ⟨by decide, rfl, by decide⟩

/-- C2 amended: `ReadFromEnv` returns the censor unchanged when the
variable value is empty, and a failing `ReadFromFile` registers nothing;
but a successful `ReadFromFile` registers the trimmed content
unconditionally, including the empty string. -/
theorem C2_amended (getenv : String → String) (name : String) (c : DynamicCensor)
    (h : getenv name = "") :
    ReadFromEnv getenv name c = ("", c) ∧
    (∀ e : String, ReadFromFile (Except.error e) c = Except.error e) ∧
    (∀ data : String, ReadFromFile (Except.ok data) c =
      Except.ok (trimSpace data, AddSecrets c [trimSpace data])) := by
  refine ⟨?_, fun e => rfl, fun data => rfl⟩
  simp [ReadFromEnv, h]

/-- Witness for C2 amended: an unset environment variable leaves a fresh
censor unchanged. -/
theorem C2_amended_witness :
    (fun _ : String => "") "TOKEN" = "" ∧
    ReadFromEnv (fun _ : String => "") "TOKEN" NewDynamicCensor = ("", NewDynamicCensor) :=
  ⟨rfl, (C2_amended (fun _ : String => "") "TOKEN" NewDynamicCensor rfl).1⟩

/-- C3 counterexample: a non-optional verify entry naming the excluded job
belongs to the descriptor's verify map yet is placed in neither the
blocking nor the informing dashboard, refuting the claim that every verify
entry is placed in exactly one of the two. -/
theorem C3_counterexample :
    classify { publish := { mirror := { imageStreamRef := { name := "4.5" } },
                            tag := { tagRef := { name := "" } } },
               verify := [{ optional := false, prowJob := { name := excludedJob } }] } =
      some ("okd", "4.5") ∧
    ({ optional := false, prowJob := { name := excludedJob } } : VerifyItem) ∈
      ({ publish := { mirror := { imageStreamRef := { name := "4.5" } },
                      tag := { tagRef := { name := "" } } },
         verify := [{ optional := false, prowJob := { name := excludedJob } }] } : Release).verify ∧
    excludedJob ∉ ((routeVerify (dashboardFor "okd" "4.5" "blocking")
        (dashboardFor "okd" "4.5" "informing")
        [{ optional := false, prowJob := { name := excludedJob } }]).1.board.dashboardTab.map
          DashboardTab.name) ∧
    excludedJob ∉ ((routeVerify (dashboardFor "okd" "4.5" "blocking")
        (dashboardFor "okd" "4.5" "informing")
        [{ optional := false, prowJob := { name := excludedJob } }]).2.board.dashboardTab.map
          DashboardTab.name) := by
  refine ⟨by decide, by decide, by decide, by decide⟩

/-- C3 amended: for every descriptor, each verify entry whose prow job
name is not the hard-coded excluded name is placed in exactly one of the
two dashboards, chosen solely by its optional flag — the informing tab and
test group names are exactly the names of the optional non-excluded
entries, and the blocking ones exactly the names of the non-optional
non-excluded entries; entries naming the excluded job appear in neither. -/
theorem C3_amended (p v : String) (jobs : List VerifyItem) :
    ((routeVerify (dashboardFor p v "blocking") (dashboardFor p v "informing")
        jobs).1.board.dashboardTab.map DashboardTab.name =
      (jobs.filter blockingJob).map (fun j => j.prowJob.name)) ∧
    ((routeVerify (dashboardFor p v "blocking") (dashboardFor p v "informing")
        jobs).2.board.dashboardTab.map DashboardTab.name =
      (jobs.filter informingJob).map (fun j => j.prowJob.name)) ∧
    ((routeVerify (dashboardFor p v "blocking") (dashboardFor p v "informing")
        jobs).1.testGroups.map TestGroup.name =
      (jobs.filter blockingJob).map (fun j => j.prowJob.name)) ∧
    ((routeVerify (dashboardFor p v "blocking") (dashboardFor p v "informing")
        jobs).2.testGroups.map TestGroup.name =
      (jobs.filter informingJob).map (fun j => j.prowJob.name)) := by
  rw [routeVerify_from_empty]
  exact ⟨tab_names_of_filtered jobs blockingJob, tab_names_of_filtered jobs informingJob,
    group_names_of_filtered jobs blockingJob, group_names_of_filtered jobs informingJob⟩

/-- C7: the hard-coded excluded job name never appears among the tab names
or the test group names of any dashboard derived from any descriptor,
regardless of the optional flag of the entry naming it. -/
theorem C7_excluded_job (r : Release) (d : dashboard) (hd : d ∈ deriveDashboards r) :
    excludedJob ∉ d.board.dashboardTab.map DashboardTab.name ∧
    excludedJob ∉ d.testGroups.map TestGroup.name := by
  rcases hc : classify r with _ | pv
  · simp only [deriveDashboards, hc] at hd
    simp at hd
  · simp only [deriveDashboards, hc] at hd
    rcases List.mem_append.mp hd with h | h
    · have hd1 : d = (routeVerify (dashboardFor pv.1 pv.2 "blocking")
          (dashboardFor pv.1 pv.2 "informing") r.verify).1 := by
        by_cases hb : 0 < (routeVerify (dashboardFor pv.1 pv.2 "blocking")
            (dashboardFor pv.1 pv.2 "informing") r.verify).1.testGroups.length
        · rw [if_pos hb] at h
          simpa using h
        · rw [if_neg hb] at h
          simp at h
      rw [hd1, routeVerify_from_empty]
      constructor
      · rw [tab_names_of_filtered]
        exact excluded_not_in_filtered r.verify blockingJob blockingJob_not_excluded
      · rw [group_names_of_filtered]
        exact excluded_not_in_filtered r.verify blockingJob blockingJob_not_excluded
    · have hd1 : d = (routeVerify (dashboardFor pv.1 pv.2 "blocking")
          (dashboardFor pv.1 pv.2 "informing") r.verify).2 := by
        by_cases hb : 0 < (routeVerify (dashboardFor pv.1 pv.2 "blocking")
            (dashboardFor pv.1 pv.2 "informing") r.verify).2.testGroups.length
        · rw [if_pos hb] at h
          simpa using h
        · rw [if_neg hb] at h
          simp at h
      rw [hd1, routeVerify_from_empty]
      constructor
      · rw [tab_names_of_filtered]
        exact excluded_not_in_filtered r.verify informingJob informingJob_not_excluded
      · rw [group_names_of_filtered]
        exact excluded_not_in_filtered r.verify informingJob informingJob_not_excluded

/-- Concrete release descriptor used by witnesses: okd/4.5 with a single
non-optional verify entry. -/
def releaseSampleA : Release :=
  { publish := { mirror := { imageStreamRef := { name := "4.5" } },
                 tag := { tagRef := { name := "" } } },
    verify := [{ optional := false, prowJob := { name := "job-a" } }] }

/-- Witness for C7 at a concrete descriptor: the kept blocking dashboard
mentions the excluded job name in no tab and no test group. -/
theorem C7_excluded_job_witness :
    (routeVerify (dashboardFor "okd" "4.5" "blocking") (dashboardFor "okd" "4.5" "informing")
        releaseSampleA.verify).1 ∈ deriveDashboards releaseSampleA ∧
    excludedJob ∉ ((routeVerify (dashboardFor "okd" "4.5" "blocking")
        (dashboardFor "okd" "4.5" "informing")
        releaseSampleA.verify).1.board.dashboardTab.map DashboardTab.name) ∧
    excludedJob ∉ ((routeVerify (dashboardFor "okd" "4.5" "blocking")
        (dashboardFor "okd" "4.5" "informing")
        releaseSampleA.verify).1.testGroups.map TestGroup.name) := by
  refine ⟨by decide, ?_, ?_⟩
  · exact (C7_excluded_job releaseSampleA _ (by decide)).1
  · exact (C7_excluded_job releaseSampleA _ (by decide)).2

/-- C8: in every generated per-dashboard configuration document, the test
groups are sorted ascending by name and every dashboard's tabs are sorted
ascending by name. -/
theorem C8_sorted_output (d : dashboard) :
    ((outputConfigFor d).testGroups).Pairwise (fun a b => strLe a.name b.name = true) ∧
    ∀ db ∈ (outputConfigFor d).dashboards,
      db.dashboardTab.Pairwise (fun a b => strLe a.name b.name = true) := by
  constructor
  · exact pairwise_sortBy tgLe (fun a b h => strLe_total a.name b.name h)
      (fun a b c h1 h2 => strLe_trans a.name b.name c.name h1 h2) d.testGroups
  · intro db hdb
    simp only [outputConfigFor] at hdb
    rcases List.mem_map.mp hdb with ⟨b, hb, heq⟩
    rw [← heq]
    exact pairwise_sortBy tabLe (fun a b h => strLe_total a.name b.name h)
      (fun a b c h1 h2 => strLe_trans a.name b.name c.name h1 h2) b.dashboardTab

/-- C9: for a classified descriptor, the blocking and the informing
dashboard each end up in the derived output set if and only if at least
one verify entry was assigned to it. -/
theorem C9_kept_iff_nonempty (r : Release) (p v : String) (h : classify r = some (p, v)) :
    ((routeVerify (dashboardFor p v "blocking") (dashboardFor p v "informing") r.verify).1
        ∈ deriveDashboards r ↔ 0 < (r.verify.filter blockingJob).length) ∧
    ((routeVerify (dashboardFor p v "blocking") (dashboardFor p v "informing") r.verify).2
        ∈ deriveDashboards r ↔ 0 < (r.verify.filter informingJob).length) := by
  have hBI := routeVerify_from_empty p v r.verify
  have hBlen : (routeVerify (dashboardFor p v "blocking") (dashboardFor p v "informing")
      r.verify).1.testGroups.length = (r.verify.filter blockingJob).length := by
    rw [hBI]
    simp
  have hIlen : (routeVerify (dashboardFor p v "blocking") (dashboardFor p v "informing")
      r.verify).2.testGroups.length = (r.verify.filter informingJob).length := by
    rw [hBI]
    simp
  have hne : (routeVerify (dashboardFor p v "blocking") (dashboardFor p v "informing")
      r.verify).1 ≠ (routeVerify (dashboardFor p v "blocking")
      (dashboardFor p v "informing") r.verify).2 := by
    rw [hBI]
    intro hEq
    have hn := congrArg (fun d0 => d0.board.name) hEq
    exact string_append_length_ne p v hn
  simp only [deriveDashboards, h]
  constructor
  · constructor
    · intro hmem
      by_cases c1 : 0 < (routeVerify (dashboardFor p v "blocking")
          (dashboardFor p v "informing") r.verify).1.testGroups.length
      · rwa [hBlen] at c1
      · exfalso
        rw [if_neg c1] at hmem
        rw [List.nil_append] at hmem
        by_cases c2 : 0 < (routeVerify (dashboardFor p v "blocking")
            (dashboardFor p v "informing") r.verify).2.testGroups.length
        · rw [if_pos c2] at hmem
          exact hne (List.mem_singleton.mp hmem)
        · rw [if_neg c2] at hmem
          exact (List.not_mem_nil _) hmem
    · intro hlen
      have c1 : 0 < (routeVerify (dashboardFor p v "blocking")
          (dashboardFor p v "informing") r.verify).1.testGroups.length := by
        rwa [hBlen]
      rw [if_pos c1]
      exact List.mem_append.mpr (Or.inl (List.mem_singleton.mpr rfl))
  · constructor
    · intro hmem
      by_cases c2 : 0 < (routeVerify (dashboardFor p v "blocking")
          (dashboardFor p v "informing") r.verify).2.testGroups.length
      · rwa [hIlen] at c2
      · exfalso
        rw [if_neg c2, List.append_nil] at hmem
        by_cases c1 : 0 < (routeVerify (dashboardFor p v "blocking")
            (dashboardFor p v "informing") r.verify).1.testGroups.length
        · rw [if_pos c1] at hmem
          exact hne (List.mem_singleton.mp hmem).symm
        · rw [if_neg c1] at hmem
          exact (List.not_mem_nil _) hmem
    · intro hlen
      have c2 : 0 < (routeVerify (dashboardFor p v "blocking")
          (dashboardFor p v "informing") r.verify).2.testGroups.length := by
        rwa [hIlen]
      rw [if_pos c2]
      exact List.mem_append.mpr (Or.inr (List.mem_singleton.mpr rfl))

/-- Witness for C9 at a concrete descriptor: the blocking dashboard (one
assigned job) is kept, while the informing dashboard (no assigned jobs) is
not. -/
theorem C9_kept_iff_nonempty_witness :
    classify releaseSampleA = some ("okd", "4.5") ∧
    (routeVerify (dashboardFor "okd" "4.5" "blocking") (dashboardFor "okd" "4.5" "informing")
        releaseSampleA.verify).1 ∈ deriveDashboards releaseSampleA ∧
    ¬ ((routeVerify (dashboardFor "okd" "4.5" "blocking") (dashboardFor "okd" "4.5" "informing")
        releaseSampleA.verify).2 ∈ deriveDashboards releaseSampleA) := by
  refine ⟨by decide, ?_, ?_⟩
  · exact (C9_kept_iff_nonempty releaseSampleA "okd" "4.5" (by decide)).1.mpr (by decide)
  · intro hmem
    have := (C9_kept_iff_nonempty releaseSampleA "okd" "4.5" (by decide)).2.mp hmem
    exact absurd this (by decide)

/-- C4: rewriting the group index only modifies groups named `redhat`:
the configuration's other fields are written back as read, and every
dashboard group whose name is not `redhat` is carried over unchanged, in
place. -/
theorem C4_frame (names : StringSet) (c : Configuration) :
    (updateConfiguration names c).testGroups = c.testGroups ∧
    (updateConfiguration names c).dashboards = c.dashboards ∧
    List.Forall₂ (fun g g2 => g.name ≠ "redhat" → g2 = g)
      c.dashboardGroups (updateConfiguration names c).dashboardGroups := by
  refine ⟨rfl, rfl, ?_⟩
  show List.Forall₂ _ c.dashboardGroups (updateGroups names c.dashboardGroups).2
  induction c.dashboardGroups generalizing names with
  | nil => exact List.Forall₂.nil
  | cons g rest ih =>
    simp only [updateGroups]
    by_cases h : g.name = "redhat"
    · rw [if_pos h]
      exact List.Forall₂.cons (fun hne => absurd h hne) (ih _)
    · rw [if_neg h]
      exact List.Forall₂.cons (fun _ => rfl) (ih names)

theorem updateGroups_get_first :
    ∀ (gs : List DashboardGroup) (names : StringSet) (i : Nat) (hi : i < gs.length)
      (h2 : i < ((updateGroups names gs).2).length),
      (gs.get ⟨i, hi⟩).name = "redhat" →
      (∀ (j : Nat) (hj : j < gs.length), j < i → (gs.get ⟨j, hj⟩).name ≠ "redhat") →
      ((updateGroups names gs).2).get ⟨i, h2⟩ =
        { name := (gs.get ⟨i, hi⟩).name,
          dashboardNames := (names.insertAll (gs.get ⟨i, hi⟩).dashboardNames).list } := by
  intro gs
  induction gs with
  | nil =>
    intro names i hi
    exact absurd hi (by simp)
  | cons g rest ih =>
    intro names i hi h2 hname hfirst
    cases i with
    | zero =>
      have hg : g.name = "redhat" := hname
      have hlist : (updateGroups names (g :: rest)).2 =
          { name := g.name, dashboardNames := (names.insertAll g.dashboardNames).list } ::
            (updateGroups (names.insertAll g.dashboardNames) rest).2 := by
        simp only [updateGroups]
        rw [if_pos hg]
      rw [List.get_of_eq hlist]
      rfl
    | succ j =>
      have hg : g.name ≠ "redhat" := hfirst 0 (by simp) (Nat.succ_pos j)
      have hj : j < rest.length := by
        simpa using hi
      have h2r : j < ((updateGroups names rest).2).length := by
        rw [updateGroups_length]
        exact hj
      have hfirst2 : ∀ (k : Nat) (hk : k < rest.length), k < j →
          (rest.get ⟨k, hk⟩).name ≠ "redhat" := by
        intro k hk hlt
        exact hfirst (k + 1) (by simpa using hk) (by omega)
      have hrec := ih names j hj h2r hname hfirst2
      have hlist : (updateGroups names (g :: rest)).2 = g :: (updateGroups names rest).2 := by
        simp only [updateGroups]
        rw [if_neg hg]
      rw [List.get_of_eq hlist]
      exact hrec

theorem mem_runDerivedNames (rs : List Release) (s : String) :
    s ∈ (runDerivedNames rs).elems ↔ ∃ d ∈ runDashboards rs, d.board.name = s := by
  simp only [runDerivedNames]
  rw [StringSet.mem_insertAll]
  simp only [StringSet.empty, List.not_mem_nil, false_or]
  exact List.mem_map

theorem nodup_runDerivedNames (rs : List Release) : (runDerivedNames rs).elems.Nodup :=
  StringSet.nodup_insertAll _ StringSet.empty List.nodup_nil

/-- C5: after a run over the given descriptors, the membership list of the
first group named `redhat` in the index equals the sorted deduplicated
union of its previous names and the names of all dashboards derived in the
run: the new list is strictly sorted (hence deduplicated) and contains
exactly the old names and the derived dashboard names. -/
theorem C5_redhat_union (rs : List Release) (c : Configuration) (i : Nat)
    (hi : i < c.dashboardGroups.length)
    (h2 : i < ((updateConfiguration (runDerivedNames rs) c).dashboardGroups).length)
    (hname : (c.dashboardGroups.get ⟨i, hi⟩).name = "redhat")
    (hfirst : ∀ (j : Nat) (hj : j < c.dashboardGroups.length), j < i →
      (c.dashboardGroups.get ⟨j, hj⟩).name ≠ "redhat") :
    (((updateConfiguration (runDerivedNames rs) c).dashboardGroups).get
        ⟨i, h2⟩).dashboardNames.Pairwise (fun x y => strLt x y = true) ∧
    ∀ s : String,
      s ∈ (((updateConfiguration (runDerivedNames rs) c).dashboardGroups).get
          ⟨i, h2⟩).dashboardNames ↔
        ((∃ d ∈ runDashboards rs, d.board.name = s) ∨
          s ∈ (c.dashboardGroups.get ⟨i, hi⟩).dashboardNames) := by
  have hget := updateGroups_get_first c.dashboardGroups (runDerivedNames rs) i hi h2
    hname hfirst
  have hupd : ((updateConfiguration (runDerivedNames rs) c).dashboardGroups).get ⟨i, h2⟩ =
      { name := (c.dashboardGroups.get ⟨i, hi⟩).name,
        dashboardNames :=
          ((runDerivedNames rs).insertAll
            (c.dashboardGroups.get ⟨i, hi⟩).dashboardNames).list } := hget
  rw [hupd]
  constructor
  · exact StringSet.sorted_lt_list _
      (StringSet.nodup_insertAll _ _ (nodup_runDerivedNames rs))
  · intro s
    rw [StringSet.mem_list, StringSet.mem_insertAll, mem_runDerivedNames]

/-- Concrete group index used by the C5 witness. -/
def groupsSampleA : Configuration :=
  { testGroups := [],
    dashboards := [],
    dashboardGroups := [ { name := "other", dashboardNames := ["x"] },
                         { name := "redhat", dashboardNames := ["old-dash"] } ] }

/-- Witness for C5 at a concrete run: the rewritten `redhat` group is
strictly sorted and keeps its previous member while gaining the derived
dashboard name. -/
theorem C5_redhat_union_witness :
    (groupsSampleA.dashboardGroups.get ⟨1, by decide⟩).name = "redhat" ∧
    (((updateConfiguration (runDerivedNames [releaseSampleA])
        groupsSampleA).dashboardGroups).get ⟨1, by decide⟩).dashboardNames.Pairwise
        (fun x y => strLt x y = true) ∧
    "old-dash" ∈ (((updateConfiguration (runDerivedNames [releaseSampleA])
        groupsSampleA).dashboardGroups).get ⟨1, by decide⟩).dashboardNames ∧
    "redhat-openshift-okd-release-4.5-blocking" ∈
      (((updateConfiguration (runDerivedNames [releaseSampleA])
        groupsSampleA).dashboardGroups).get ⟨1, by decide⟩).dashboardNames := by
  have hmain := C5_redhat_union [releaseSampleA] groupsSampleA 1 (by decide) (by decide)
    (by decide) (by decide)
  refine ⟨by decide, hmain.1, ?_, ?_⟩
  · exact (hmain.2 "old-dash").mpr (Or.inr (by decide))
  · exact (hmain.2 "redhat-openshift-okd-release-4.5-blocking").mpr
      (Or.inl (by decide))

theorem foldl_AddSecrets_inv (calls : List (List String)) :
    ∀ c : DynamicCensor, c.refreshed = c.secrets.list →
      (calls.foldl AddSecrets c).refreshed = (calls.foldl AddSecrets c).secrets.list := by
  induction calls with
  | nil => intro c h; exact h
  | cons a t ih =>
    intro c h
    exact ih (AddSecrets c a) rfl

theorem foldl_AddSecrets_mem (calls : List (List String)) :
    ∀ (c : DynamicCensor) (s : String),
      s ∈ (calls.foldl AddSecrets c).secrets.elems ↔
        s ∈ c.secrets.elems ∨ ∃ cl ∈ calls, s ∈ cl := by
  induction calls with
  | nil => intro c s; simp
  | cons a t ih =>
    intro c s
    simp only [List.foldl_cons]
    rw [ih (AddSecrets c a) s]
    rw [show (AddSecrets c a).secrets = c.secrets.insertAll a from rfl]
    rw [StringSet.mem_insertAll]
    simp only [List.mem_cons]
    constructor
    · intro hx
      rcases hx with (hx | hx) | ⟨cl, hcl, hscl⟩
      · exact Or.inl hx
      · exact Or.inr ⟨a, Or.inl rfl, hx⟩
      · exact Or.inr ⟨cl, Or.inr hcl, hscl⟩
    · intro hx
      rcases hx with hx | ⟨cl, hcl | hcl, hscl⟩
      · exact Or.inl (Or.inl hx)
      · rw [hcl] at hscl
        exact Or.inl (Or.inr hscl)
      · exact Or.inr ⟨cl, hcl, hscl⟩

theorem string_data_ne_nil (s : String) (h : s ≠ "") : s.data ≠ [] := by
  intro h0
  apply h
  have := congrArg String.mk h0
  simpa using this

/-- C6: after any sequence of `AddSecrets` calls on a fresh censor, the
censorer is refreshed from exactly the full current secret set — whose
members are exactly the strings added so far — so `Redact` leaves any
text containing no occurrence of an added secret unchanged and masks any
text containing an occurrence of an added non-empty secret. -/
theorem C6_redactor_current (calls : List (List String)) :
    (calls.foldl AddSecrets NewDynamicCensor).refreshed =
      (calls.foldl AddSecrets NewDynamicCensor).secrets.list ∧
    (∀ s : String, s ∈ (calls.foldl AddSecrets NewDynamicCensor).refreshed ↔
      ∃ cl ∈ calls, s ∈ cl) ∧
    (∀ text : String,
      (∀ s, s ∈ (calls.foldl AddSecrets NewDynamicCensor).refreshed → s = "" ∨
        ¬ s.data <:+: text.data) →
      Redact (calls.foldl AddSecrets NewDynamicCensor) text = text) ∧
    (∀ (text s : String), s ∈ (calls.foldl AddSecrets NewDynamicCensor).refreshed →
      s ≠ "" → s.data <:+: text.data →
      mask.data <:+: (Redact (calls.foldl AddSecrets NewDynamicCensor) text).data) := by
  have hinv := foldl_AddSecrets_inv calls NewDynamicCensor rfl
  refine ⟨hinv, ?_, ?_, ?_⟩
  · intro s
    rw [hinv, StringSet.mem_list, foldl_AddSecrets_mem]
    simp [NewDynamicCensor, StringSet.empty]
  · intro text h
    have hno : ∀ sl ∈ ((calls.foldl AddSecrets NewDynamicCensor).refreshed).map String.data,
        sl = [] ∨ ¬ sl <:+: text.data := by
      intro sl hsl
      rcases List.mem_map.mp hsl with ⟨s, hs, heq⟩
      rcases h s hs with h1 | h1
      · left
        rw [← heq, h1]
      · right
        rw [← heq]
        exact h1
    show String.mk (redactChars _ text.data) = text
    rw [redactChars_of_no_occurrence _ text.data hno]
  · intro text s hs hne hocc
    have hmem : s.data ∈ ((calls.foldl AddSecrets NewDynamicCensor).refreshed).map
        String.data := List.mem_map.mpr ⟨s, hs, rfl⟩
    exact redactChars_masks _ text.data s.data hmem (string_data_ne_nil s hne) hocc

/-- Witness for C6 at a concrete call sequence: both added secrets are in
the refreshed list, and a text containing the first one gets masked. -/
theorem C6_redactor_current_witness :
    "abc123" ∈ ([["abc123"], ["zzz9"]].foldl AddSecrets NewDynamicCensor).refreshed ∧
    "zzz9" ∈ ([["abc123"], ["zzz9"]].foldl AddSecrets NewDynamicCensor).refreshed ∧
    mask.data <:+:
      (Redact ([["abc123"], ["zzz9"]].foldl AddSecrets NewDynamicCensor) "xx-abc123-yy").data ∧
    mask.data <:+:
      (Redact ([["abc123"], ["zzz9"]].foldl AddSecrets NewDynamicCensor) "zzz9").data := by
  refine ⟨by decide, by decide, ?_, ?_⟩
  · exact (C6_redactor_current [["abc123"], ["zzz9"]]).2.2.2 "xx-abc123-yy" "abc123"
      (by decide) (by decide) (by decide)
  · exact (C6_redactor_current [["abc123"], ["zzz9"]]).2.2.2 "zzz9" "zzz9"
      (by decide) (by decide) (by decide)

theorem StringSet.insertAll_of_subset (l : List String) :
    ∀ c : StringSet, (∀ x ∈ l, x ∈ c.elems) → c.insertAll l = c := by
  induction l with
  | nil => intro c h; rfl
  | cons a t ih =>
    intro c h
    simp only [StringSet.insertAll, List.foldl_cons]
    have ha : c.insert a = c := by
      simp only [StringSet.insert]
      rw [if_pos (h a (List.mem_cons_self a t))]
    rw [show t.foldl StringSet.insert (c.insert a) = (c.insert a).insertAll t from rfl, ha]
    exact ih c (fun x hx => h x (List.mem_cons_of_mem a hx))

/-- C10: `AddSecrets` is idempotent — on any censor state whose censorer
reflects its secret set, adding strings that are all already members
leaves the state (and hence the behaviour of `Redact` on every input)
unchanged. -/
theorem C10_idempotent (c : DynamicCensor) (hc : c.refreshed = c.secrets.list)
    (s : List String) (hs : ∀ x ∈ s, x ∈ c.secrets.elems) :
    AddSecrets c s = c ∧ ∀ text : String, Redact (AddSecrets c s) text = Redact c text := by
  have hset : c.secrets.insertAll s = c.secrets := StringSet.insertAll_of_subset s c.secrets hs
  have hstate : AddSecrets c s = c := by
    show ({ secrets := c.secrets.insertAll s,
            refreshed := (c.secrets.insertAll s).list } : DynamicCensor) = c
    rw [hset, ← hc]
  exact ⟨hstate, fun text => by rw [hstate]⟩

/-- Witness for C10 at a concrete state: re-adding an existing secret
leaves the censor and its redaction behaviour unchanged. -/
theorem C10_idempotent_witness :
    (∀ x ∈ ["tok"], x ∈ (AddSecrets NewDynamicCensor ["tok"]).secrets.elems) ∧
    AddSecrets (AddSecrets NewDynamicCensor ["tok"]) ["tok"] =
      AddSecrets NewDynamicCensor ["tok"] ∧
    Redact (AddSecrets (AddSecrets NewDynamicCensor ["tok"]) ["tok"]) "a tok b" =
      Redact (AddSecrets NewDynamicCensor ["tok"]) "a tok b" := by
  refine ⟨by decide, ?_, ?_⟩
  · exact (C10_idempotent (AddSecrets NewDynamicCensor ["tok"]) rfl ["tok"] (by decide)).1
  · exact (C10_idempotent (AddSecrets NewDynamicCensor ["tok"]) rfl ["tok"]
      (by decide)).2 "a tok b"

end CITools
